import Mathlib

/-!
Verification of the DCT image-compressor core of `kompresiRLe.py`.

The Python source is shallowly embedded: numpy float arrays become
functions `ℕ → ℕ → ℚ`, uint8 sample planes become functions `ℕ → ℕ → ℕ`
with explicit width/height, and the external OpenCV routines
(`cv2.dct`, `cv2.idct`, `cv2.resize`, `np.sqrt`, `cv2.cvtColor`) are
abstracted as function parameters, with their documented shape or sign
behavior taken as hypotheses where a theorem needs it.
-/

namespace KompresiRle

/-- A 2D array of rationals (embedding of a numpy float array; entries
outside the intended bounds are irrelevant). -/
def Mat : Type := ℕ → ℕ → ℚ

/-- `np.round`: round half to even (banker's rounding), numpy's rule. -/
def npRound (x : ℚ) : ℤ :=
  if x - ⌊x⌋ < 1/2 then ⌊x⌋
  else if 1/2 < x - ⌊x⌋ then ⌊x⌋ + 1
  else if ⌊x⌋ % 2 = 0 then ⌊x⌋ else ⌊x⌋ + 1

/-- The canonical 8×8 JPEG luminance quantization table from
`create_jpeg_quantization_matrix` (line 699), row major. -/
def jpegTable8 : List (List ℚ) :=
  [[16, 11, 10, 16, 24, 40, 51, 61],
   [12, 12, 14, 19, 26, 58, 60, 55],
   [14, 13, 16, 24, 40, 57, 69, 56],
   [14, 17, 22, 29, 51, 87, 80, 62],
   [18, 22, 37, 56, 68, 109, 103, 77],
   [24, 35, 55, 64, 81, 104, 113, 92],
   [49, 64, 78, 87, 103, 121, 120, 101],
   [72, 92, 95, 98, 112, 100, 103, 99]]

/-- Entry access for the 8×8 JPEG table (0 outside the table). -/
def jpegQ8 : Mat := fun i j => (((jpegTable8.get? i).map (fun row => (row.get? j).getD 0)).getD 0)

/-- The fixed 4×4 base table used for non-8 block sizes (line 711). -/
def baseQ4 : Mat := fun i j =>
  ((([[16, 11, 10, 16], [12, 12, 14, 19], [14, 13, 16, 24], [14, 17, 22, 29]]
      : List (List ℚ)).get? i).map (fun row => (row.get? j).getD 0)).getD 0

/-- `create_jpeg_quantization_matrix` (lines 695–718).  `resize` stands for
the external `cv2.resize(·, (size,size), INTER_LINEAR)`; its output is
clipped to [1,255] exactly as `np.clip(q, 1, 255)` does. -/
def create_jpeg_quantization_matrix (resize : Mat → ℕ → Mat) (size : ℕ) : Mat :=
  if size = 8 then jpegQ8
  else fun i j => min 255 (max 1 (resize baseQ4 size i j))

/-- `create_custom_quantization_matrix` (lines 720–735).  `sqrtQ` stands for
the external `np.sqrt`.  Entry `(i,j)` is
`1 + (sqrt(i²+j²) / sqrt(2·size²)) · 50`. -/
def create_custom_quantization_matrix (sqrtQ : ℚ → ℚ) (size : ℕ) : Mat :=
  fun i j => 1 + (sqrtQ ((i : ℚ) ^ 2 + (j : ℚ) ^ 2) / sqrtQ (2 * (size : ℚ) ^ 2)) * 50

/-- The three quantization policies offered by the combobox (line 273). -/
inductive Quantization where
  | standardJPEG : Quantization
  | uniform : Quantization
  | custom : Quantization

/-- External numeric routines the core calls but does not implement:
`cv2.resize`, `np.sqrt`, `cv2.dct`, `cv2.idct` (the transforms receive the
actual—possibly clipped—block height and width).  The fields give the
numeric content of the routines on inputs they accept; the documented
rejection of odd-size arrays by `cv2.dct`/`cv2.idct` is modelled
separately by `dctSizeOk` and `process_channel_dct_checked`. -/
structure Ext where
  resize : Mat → ℕ → Mat
  sqrtQ : ℚ → ℚ
  dct : ℕ → ℕ → Mat → Mat
  idct : ℕ → ℕ → Mat → Mat

/-- The unscaled quantization matrix chosen in `process_channel_dct`
(lines 650–655): JPEG table, `np.ones`, or the custom radial matrix. -/
def baseQuantMatrix (ext : Ext) (q : Quantization) (bs : ℕ) : Mat :=
  match q with
  | .standardJPEG => create_jpeg_quantization_matrix ext.resize bs
  | .uniform => fun _ _ => 1
  | .custom => create_custom_quantization_matrix ext.sqrtQ bs

/-- Line 658: `q_matrix = q_matrix * (1.0 + (1.0 - compression_level) * 10)`. -/
def scaledQuantMatrix (ext : Ext) (q : Quantization) (bs : ℕ) (level : ℚ) : Mat :=
  fun i j => baseQuantMatrix ext q bs i j * (1 + (1 - level) * 10)

/-- Line 760: `1.0 / (1.0 + (100 - self.compression_level.get()) / 100.0)`. -/
def ratioOf (levelPercent : ℚ) : ℚ := 1 / (1 + (100 - levelPercent) / 100)

/-- numpy uint8 arithmetic: reduce an integer to a byte. -/
def u8 (n : ℤ) : ℕ := (n % 256).toNat

/-- uint8 subtraction as numpy performs it on `original - processed`
(line 742): wraps modulo 256. -/
def u8sub (a b : ℕ) : ℕ := u8 ((a : ℤ) - (b : ℤ))

/-- uint8 squaring as numpy performs it in `(...) ** 2` (line 742):
wraps modulo 256. -/
def u8sq (a : ℕ) : ℕ := (a * a) % 256

/-- The mean-squared-error value `calculate_metrics` actually computes on
flattened uint8 samples (line 742): all the per-sample arithmetic stays in
uint8 and wraps. -/
def mseCode (orig recon : List ℕ) : ℚ :=
  (((orig.zip recon).map (fun p => (u8sq (u8sub p.1 p.2) : ℚ))).sum)
    / ((orig.zip recon).length : ℚ)

/-- The mean-squared error the specification prescribes:
`mean((original − reconstructed)²)` in exact arithmetic. -/
def mseSpec (orig recon : List ℕ) : ℚ :=
  (((orig.zip recon).map (fun p => ((p.1 : ℚ) - (p.2 : ℚ)) ^ 2)).sum)
    / ((orig.zip recon).length : ℚ)

/-- `calculate_metrics` reports PSNR = +infinity exactly when its computed
mse is 0 (lines 743–744). -/
def psnrIsInfCode (orig recon : List ℕ) : Prop := mseCode orig recon = 0

/-- The exact sequence of values written to `progress_var` during one
successful run: 0 from `show_progress(True)` (line 1019), then 10, 20
(lines 581, 593), then `20 + (i+1)*60/n` for each of the `n` channels
(line 609).  The progress bar's maximum is 100 (line 394). -/
def progressSeq (n : ℕ) : List ℚ :=
  0 :: 10 :: 20 :: (List.range n).map (fun (i : ℕ) => 20 + ((i : ℚ) + 1) * 60 / (n : ℚ))

/-- A trivial instantiation of the external routines, used to evaluate the
embedding on concrete inputs. -/
def extTrivial : Ext := ⟨fun m _ => m, fun _ => 0, fun _ _ m => m, fun _ _ m => m⟩

/-- A single-channel plane of uint8 samples with explicit dimensions
(row index first, matching `channel[y, x]`). -/
structure Plane where
  h : ℕ
  w : ℕ
  data : ℕ → ℕ → ℕ

instance : Inhabited Plane := ⟨⟨0, 0, fun _ _ => 0⟩⟩

/-- A quantized coefficient block as stored in the archive (line 676). -/
structure QBlock where
  bh : ℕ
  bw : ℕ
  entry : ℕ → ℕ → ℤ

/-- Python `range(0, extent, block_size)` (lines 661–662): the block
origins `0, bs, 2·bs, …` strictly below `extent`. -/
def origins (extent bs : ℕ) : List ℕ :=
  (List.range ((extent + bs - 1) / bs)).map (fun k => bs * k)

/-- Height of the (possibly clipped) block at row origin `y`
(`channel[y:y+block_size, ...]`, line 664). -/
def blockH (ch : Plane) (bs y : ℕ) : ℕ := min bs (ch.h - y)

/-- Width of the (possibly clipped) block at column origin `x`. -/
def blockW (ch : Plane) (bs x : ℕ) : ℕ := min bs (ch.w - x)

/-- Lines 664–667: extract the block as float and subtract 128. -/
def shiftedBlock (ch : Plane) (y x : ℕ) : Mat :=
  fun i j => (ch.data (y + i) (x + j) : ℚ) - 128

/-- Line 670: `dct_block = cv2.dct(block)` on the clipped block. -/
def dctBlock (ext : Ext) (ch : Plane) (bs y x : ℕ) : Mat :=
  ext.dct (blockH ch bs y) (blockW ch bs x) (shiftedBlock ch y x)

/-- Line 673: `quantized = np.round(dct_block / q_matrix[:bh, :bw])`
(the slicing is the use of indices below the clipped block extent). -/
def quantBlock (ext : Ext) (qm : Mat) (ch : Plane) (bs y x : ℕ) : ℕ → ℕ → ℤ :=
  fun i j => npRound (dctBlock ext ch bs y x i j / qm i j)

/-- Line 679: `dequantized = quantized * q_matrix[:bh, :bw]`. -/
def dequantBlock (ext : Ext) (qm : Mat) (ch : Plane) (bs y x : ℕ) : Mat :=
  fun i j => (quantBlock ext qm ch bs y x i j : ℚ) * qm i j

/-- Lines 682–688: `idct`, add 128 back, `np.clip(·, 0, 255)`. -/
def reconBlock (ext : Ext) (qm : Mat) (ch : Plane) (bs y x : ℕ) : Mat :=
  fun i j => min 255 (max 0
    (ext.idct (blockH ch bs y) (blockW ch bs x) (dequantBlock ext qm ch bs y x) i j + 128))

/-- Line 691: `processed[y:y+block_size, x:x+block_size] = idct_block` —
overwrite the block's region, leave the rest of the accumulator. -/
def writeBlock (acc : Mat) (y x bh bw : ℕ) (b : Mat) : Mat :=
  fun r c => if y ≤ r ∧ r < y + bh ∧ x ≤ c ∧ c < x + bw then b (r - y) (c - x) else acc r c

/-- The double loop of lines 661–691, accumulated over the
zero-initialized float plane `np.zeros_like(channel)` (line 646). -/
def processPass (ext : Ext) (qm : Mat) (ch : Plane) (bs : ℕ) : Mat :=
  (origins ch.h bs).foldl
    (fun acc y =>
      (origins ch.w bs).foldl
        (fun acc2 x =>
          writeBlock acc2 y x (blockH ch bs y) (blockW ch bs x) (reconBlock ext qm ch bs y x))
        acc)
    (fun _ _ => 0)

/-- The coefficient archive (`coeffs.append(quantized.copy())`, line 676),
one quantized block per origin in loop order. -/
def coeffList (ext : Ext) (qm : Mat) (ch : Plane) (bs : ℕ) : List QBlock :=
  (origins ch.h bs).flatMap (fun y =>
    (origins ch.w bs).map (fun x =>
      ⟨blockH ch bs y, blockW ch bs x, quantBlock ext qm ch bs y x⟩))

/-- `process_channel_dct` (lines 643–693): build and scale the quantization
matrix, run the block loop, and return the reconstructed uint8 plane
(`processed.astype(np.uint8)`, truncation of the clipped floats) together
with the coefficient archive. -/
def process_channel_dct (ext : Ext) (ch : Plane) (bs : ℕ) (level : ℚ)
    (q : Quantization) : Plane × List QBlock :=
  let qm := scaledQuantMatrix ext q bs level
  (⟨ch.h, ch.w, fun r c => (⌊processPass ext qm ch bs r c⌋).toNat⟩,
    coeffList ext qm ch bs)

/-- A 1×1 all-128 plane, used as a concrete input. -/
def onePixelPlane : Plane := ⟨1, 1, fun _ _ => 128⟩

/-- An 8×8 all-128 plane: its single block is 8×8, a size `cv2.dct`
accepts. -/
def eightPlane : Plane := ⟨8, 8, fun _ _ => 128⟩

/-- An 11×16 all-128 plane: at block size 8 its bottom edge blocks are
clipped to 3×8, a size `cv2.dct` rejects. -/
def oddEdgePlane : Plane := ⟨11, 16, fun _ _ => 128⟩

/-- The documented input restriction of `cv2.dct`/`cv2.idct`: the library
supports only even-size arrays (2, 4, 6, …) and raises a not-implemented
error for odd-size DCTs.  Modelled from the OpenCV documentation: every
dimension of the transformed block must be even. -/
def dctSizeOk (bh bw : ℕ) : Prop := bh % 2 = 0 ∧ bw % 2 = 0

instance (bh bw : ℕ) : Decidable (dctSizeOk bh bw) :=
  inferInstanceAs (Decidable (bh % 2 = 0 ∧ bw % 2 = 0))

/-- Every clipped block of the loop grid has dimensions `cv2.dct` accepts,
so no transform call in the loop raises. -/
def allBlocksOk (ch : Plane) (bs : ℕ) : Prop :=
  ∀ y ∈ origins ch.h bs, ∀ x ∈ origins ch.w bs,
    dctSizeOk (blockH ch bs y) (blockW ch bs x)

instance (ch : Plane) (bs : ℕ) : Decidable (allBlocksOk ch bs) :=
  inferInstanceAs (Decidable (∀ y ∈ origins ch.h bs, ∀ x ∈ origins ch.w bs,
    dctSizeOk (blockH ch bs y) (blockW ch bs x)))

/-- `process_channel_dct` with the documented `cv2.dct`/`cv2.idct` error
path: each clipped block is handed to `cv2.dct`, which raises on an
odd-size array; the exception propagates out of the loop and is caught by
the caller (lines 576–641), which discards the partially written local
buffer, so a call observably either returns the complete result or raises
and returns nothing. -/
def process_channel_dct_checked (ext : Ext) (ch : Plane) (bs : ℕ) (level : ℚ)
    (q : Quantization) : Option (Plane × List QBlock) :=
  if allBlocksOk ch bs then some (process_channel_dct ext ch bs level q) else none

/-- The quantization rule exactly as the spec words it:
`q[i,j] = round(coef[i,j] / matrix[i,j])`. -/
def quantizeSpec (coef qm : Mat) : ℕ → ℕ → ℤ := fun i j => npRound (coef i j / qm i j)

/-- The dequantization rule exactly as the spec words it:
`deq[i,j] = q[i,j] × matrix[i,j]`. -/
def dequantizeSpec (qb : ℕ → ℕ → ℤ) (qm : Mat) : Mat := fun i j => (qb i j : ℚ) * qm i j

/-- The color models offered by the combobox (line 266). -/
inductive ColorSpace where
  | rgb : ColorSpace
  | ycbcr : ColorSpace
  | grayscale : ColorSpace

/-- External `cv2.cvtColor` conversions used by `_apply_dct_thread`; an
image is represented as its list of channel planes (BGR order when
3-channel). -/
structure ExtColor where
  bgr2ycrcb : List Plane → List Plane
  ycrcb2bgr : List Plane → List Plane
  bgr2gray : List Plane → Plane

/-- `cv2.cvtColor(·, cv2.COLOR_GRAY2BGR)` (line 621): replicate the single
gray plane into three identical channels. -/
def gray2bgr (p : Plane) : List Plane := [p, p, p]

/-- The channel plumbing of `_apply_dct_thread` (lines 583–623): split
according to the color model, process every channel with
`process_channel_dct`, merge the processed planes, convert back to BGR. -/
def applyDctThread (ext : Ext) (ec : ExtColor) (cs : ColorSpace)
    (img : List Plane) (bs : ℕ) (level : ℚ) (q : Quantization) : List Plane :=
  let channels : List Plane :=
    match cs with
    | .ycbcr => ec.bgr2ycrcb img
    | .grayscale => [ec.bgr2gray img]
    | .rgb => img
  let processed := channels.map (fun ch => (process_channel_dct ext ch bs level q).1)
  match cs with
  | .ycbcr => ec.ycrcb2bgr processed
  | .grayscale => gray2bgr processed.headI
  | .rgb => processed

/-- A trivial instantiation of the color conversions, used to evaluate the
embedding on concrete inputs. -/
def ecTrivial : ExtColor :=
  ⟨fun _ => gray2bgr default, fun _ => gray2bgr default, fun _ => default⟩

/-- Row `r` lies in the write region of the block at row origin `y`
(the row half of `writeBlock`'s region test). -/
def coversRow (ch : Plane) (bs y r : ℕ) : Prop := y ≤ r ∧ r < y + blockH ch bs y

/-- Column `c` lies in the write region of the block at column origin `x`. -/
def coversCol (ch : Plane) (bs x c : ℕ) : Prop := x ≤ c ∧ c < x + blockW ch bs x

instance (ch : Plane) (bs y r : ℕ) : Decidable (coversRow ch bs y r) :=
  inferInstanceAs (Decidable (y ≤ r ∧ r < y + blockH ch bs y))

instance (ch : Plane) (bs x c : ℕ) : Decidable (coversCol ch bs x c) :=
  inferInstanceAs (Decidable (x ≤ c ∧ c < x + blockW ch bs x))

/-- The body of the inner `for x` loop (lines 662–691) as a fold step. -/
def innerStep (ext : Ext) (qm : Mat) (ch : Plane) (bs y : ℕ) : Mat → ℕ → Mat :=
  fun acc x => writeBlock acc y x (blockH ch bs y) (blockW ch bs x) (reconBlock ext qm ch bs y x)

/-- The body of the outer `for y` loop (line 661) as a fold step. -/
def outerStep (ext : Ext) (qm : Mat) (ch : Plane) (bs : ℕ) : Mat → ℕ → Mat :=
  fun acc y => (origins ch.w bs).foldl (innerStep ext qm ch bs y) acc

theorem jpegQ8_entries_ge_one : ∀ i < 8, ∀ j < 8, (1 : ℚ) ≤ jpegQ8 i j := by decide

/-- C4: for every quantization policy (Standard JPEG, Uniform, Custom/radial)
and every supported block size in {4,8,16,32}, every entry of the matrix
produced by the builder is ≥ 1 (assuming only that the external `np.sqrt`
maps nonnegative inputs to nonnegative outputs). -/
theorem C4_quant_matrix_entries_ge_one (ext : Ext) (q : Quantization) (bs : ℕ)
    (hbs : bs = 4 ∨ bs = 8 ∨ bs = 16 ∨ bs = 32)
    (hsqrt : ∀ x : ℚ, 0 ≤ x → 0 ≤ ext.sqrtQ x)
    (i j : ℕ) (hi : i < bs) (hj : j < bs) :
    1 ≤ baseQuantMatrix ext q bs i j := by
  cases q with
  | standardJPEG =>
      show 1 ≤ create_jpeg_quantization_matrix ext.resize bs i j
      by_cases h8 : bs = 8
      · subst h8
        rw [show create_jpeg_quantization_matrix ext.resize 8 = jpegQ8 from
          by simp [create_jpeg_quantization_matrix]]
        exact jpegQ8_entries_ge_one i hi j hj
      · rw [create_jpeg_quantization_matrix, if_neg h8]
        exact le_min (by norm_num) (le_max_left _ _)
  | uniform => simp [baseQuantMatrix]
  | custom =>
      show (1 : ℚ) ≤ 1 + (ext.sqrtQ ((i : ℚ) ^ 2 + (j : ℚ) ^ 2)
        / ext.sqrtQ (2 * (bs : ℚ) ^ 2)) * 50
      have ha : 0 ≤ ext.sqrtQ ((i : ℚ) ^ 2 + (j : ℚ) ^ 2) := hsqrt _ (by positivity)
      have hb : 0 ≤ ext.sqrtQ (2 * (bs : ℚ) ^ 2) := hsqrt _ (by positivity)
      have hq : 0 ≤ ext.sqrtQ ((i : ℚ) ^ 2 + (j : ℚ) ^ 2)
          / ext.sqrtQ (2 * (bs : ℚ) ^ 2) := div_nonneg ha hb
      linarith

theorem C4_quant_matrix_entries_ge_one_witness :
    ((8 : ℕ) = 4 ∨ (8 : ℕ) = 8 ∨ (8 : ℕ) = 16 ∨ (8 : ℕ) = 32) ∧
    (0 : ℕ) < 8 ∧ 1 ≤ baseQuantMatrix extTrivial .custom 8 0 0 :=
  ⟨by norm_num, by norm_num,
    C4_quant_matrix_entries_ge_one extTrivial .custom 8 (by norm_num)
      (fun _ _ => le_refl 0) 0 0 (by norm_num) (by norm_num)⟩

/-- C8: the computed compression ratio is exactly `1/(1+(100−p)/100)`, it is
strictly increasing in the level percentage on [1,100], and in particular
the ratio at 10 is numerically less than the ratio at 90. -/
theorem C8_ratio_formula_monotone :
    (∀ p : ℚ, ratioOf p = 1 / (1 + (100 - p) / 100)) ∧
    (∀ p q : ℚ, 1 ≤ p → p < q → q ≤ 100 → ratioOf p < ratioOf q) ∧
    ratioOf 10 < ratioOf 90 := by
  refine ⟨fun p => rfl, ?_, by norm_num [ratioOf]⟩
  intro p q hp hpq hq
  show 1 / (1 + (100 - p) / 100) < 1 / (1 + (100 - q) / 100)
  have hdp : (0 : ℚ) < 1 + (100 - p) / 100 := by linarith
  have hdq : (0 : ℚ) < 1 + (100 - q) / 100 := by linarith
  rw [div_lt_div_iff₀ hdp hdq]
  linarith

theorem C8_ratio_formula_monotone_witness :
    (1 : ℚ) ≤ 10 ∧ (10 : ℚ) < 90 ∧ (90 : ℚ) ≤ 100 ∧ ratioOf 10 < ratioOf 90 :=
  ⟨by norm_num, by norm_num, by norm_num,
    C8_ratio_formula_monotone.2.1 10 90 (by norm_num) (by norm_num) (by norm_num)⟩

/-- C1: `calculate_metrics` does its per-sample arithmetic in uint8, which
wraps modulo 256; on a 1×1 BGR image with original samples (16,16,16) and
reconstructed samples (0,0,0) it computes mse = 0 — and therefore reports
PSNR = +infinity — while the specified mean of squared differences is 256. -/
theorem C1_mse_uint8_wraparound :
    mseCode [16, 16, 16] [0, 0, 0] = 0 ∧
    mseSpec [16, 16, 16] [0, 0, 0] = 256 ∧
    psnrIsInfCode [16, 16, 16] [0, 0, 0] ∧
    mseCode [16, 16, 16] [0, 0, 0] ≠ mseSpec [16, 16, 16] [0, 0, 0] := by
  have hs : u8sq (u8sub 16 0) = 0 := by decide
  have h1 : mseCode [16, 16, 16] [0, 0, 0] = 0 := by
    simp [mseCode, hs]
  have h2 : mseSpec [16, 16, 16] [0, 0, 0] = 256 := by
    norm_num [mseSpec]
  exact ⟨h1, h2, h1, by rw [h1, h2]; norm_num⟩

/-- C9 counterexample: the final value a successful run writes to the
progress variable is 80 on the bar's 0–100 scale (fraction 0.8), not 1.0
(the bar maximum 100). -/
theorem C9_final_progress_is_eighty_not_full :
    (progressSeq 1).getLast? = some 80 ∧ (80 : ℚ) / 100 ≠ 1 := by
  constructor
  · have h : progressSeq 1 = [0, 10, 20, 80] := by
      norm_num [progressSeq, List.range_succ]
    rw [h]
    rfl
  · norm_num

/-- C9 amended: for a successful run with `n ≥ 1` channels, the reported
progress values (divided by the bar maximum 100) form a monotonically
non-decreasing sequence of fractions in [0,1], but the final value is 80
(fraction 0.8), not 1.0. -/
theorem C9_progress_monotone_final_eighty (n : ℕ) (hn : 0 < n) :
    List.Pairwise (· ≤ ·) (progressSeq n) ∧
    (∀ v ∈ progressSeq n, 0 ≤ v / 100 ∧ v / 100 ≤ 1) ∧
    (progressSeq n).getLast? = some 80 := by
  have hn' : (0 : ℚ) < (n : ℚ) := by exact_mod_cast hn
  have hlo : ∀ i : ℕ, (20 : ℚ) ≤ 20 + ((i : ℚ) + 1) * 60 / (n : ℚ) := by
    intro i
    have : 0 ≤ ((i : ℚ) + 1) * 60 / (n : ℚ) := by positivity
    linarith
  have hhi : ∀ i : ℕ, i < n → 20 + ((i : ℚ) + 1) * 60 / (n : ℚ) ≤ 80 := by
    intro i hi
    have h1 : ((i : ℚ) + 1) ≤ (n : ℚ) := by exact_mod_cast Nat.succ_le_of_lt hi
    have h2 : ((i : ℚ) + 1) * 60 / (n : ℚ) ≤ 60 := by
      rw [div_le_iff₀ hn']
      nlinarith
    linarith
  have hmem : ∀ v ∈ progressSeq n, v = 0 ∨ v = 10 ∨ v = 20 ∨
      ∃ i : ℕ, i < n ∧ v = 20 + ((i : ℚ) + 1) * 60 / (n : ℚ) := by
    intro v hv
    simp only [progressSeq, List.mem_cons, List.mem_map, List.mem_range] at hv
    rcases hv with rfl | rfl | rfl | ⟨i, hi, rfl⟩
    · exact Or.inl rfl
    · exact Or.inr (Or.inl rfl)
    · exact Or.inr (Or.inr (Or.inl rfl))
    · exact Or.inr (Or.inr (Or.inr ⟨i, hi, rfl⟩))
  refine ⟨?_, ?_, ?_⟩
  · refine List.pairwise_cons.2 ⟨?_, List.pairwise_cons.2 ⟨?_, List.pairwise_cons.2 ⟨?_, ?_⟩⟩⟩
    · intro v hv
      simp only [List.mem_cons, List.mem_map, List.mem_range] at hv
      rcases hv with rfl | rfl | ⟨i, _, rfl⟩
      · norm_num
      · norm_num
      · linarith [hlo i]
    · intro v hv
      simp only [List.mem_cons, List.mem_map, List.mem_range] at hv
      rcases hv with rfl | ⟨i, _, rfl⟩
      · norm_num
      · linarith [hlo i]
    · intro v hv
      simp only [List.mem_map, List.mem_range] at hv
      obtain ⟨i, _, rfl⟩ := hv
      exact hlo i
    · rw [List.pairwise_map]
      refine List.Pairwise.imp ?_ (List.pairwise_lt_range n)
      intro a b hab
      have h1 : ((a : ℚ) + 1) * 60 ≤ ((b : ℚ) + 1) * 60 := by
        have : (a : ℚ) < (b : ℚ) := by exact_mod_cast hab
        nlinarith
      have h2 : ((a : ℚ) + 1) * 60 / (n : ℚ) ≤ ((b : ℚ) + 1) * 60 / (n : ℚ) := by
        gcongr
      linarith
  · intro v hv
    have hvlo : (0 : ℚ) ≤ v := by
      rcases hmem v hv with rfl | rfl | rfl | ⟨i, _, rfl⟩
      · norm_num
      · norm_num
      · norm_num
      · linarith [hlo i]
    have hvhi : v ≤ 100 := by
      rcases hmem v hv with rfl | rfl | rfl | ⟨i, hi, rfl⟩
      · norm_num
      · norm_num
      · norm_num
      · linarith [hhi i hi]
    constructor
    · positivity
    · rw [div_le_one (by norm_num : (0:ℚ) < 100)]
      exact hvhi
  · obtain ⟨m, rfl⟩ := Nat.exists_eq_succ_of_ne_zero hn.ne'
    have hsplit : progressSeq (m + 1) =
        (0 :: 10 :: 20 :: (List.range m).map
          (fun (i : ℕ) => 20 + ((i : ℚ) + 1) * 60 / ((m + 1 : ℕ) : ℚ))) ++
        [20 + ((m : ℚ) + 1) * 60 / ((m + 1 : ℕ) : ℚ)] := by
      simp [progressSeq, List.range_succ]
    rw [hsplit, List.getLast?_concat]
    have hm : ((m : ℚ) + 1) ≠ 0 := by positivity
    have hcast : ((m + 1 : ℕ) : ℚ) = (m : ℚ) + 1 := by push_cast; ring
    rw [hcast]
    rw [mul_comm ((m : ℚ) + 1) 60, mul_div_assoc, div_self hm, mul_one]
    norm_num

/-- C2 counterexample: the level value 2 lies outside (0,1], yet no
validation rejects it: on an 8×8 plane — whose single block has a size
`cv2.dct` accepts, so no library error intervenes either — processing runs
to completion, producing a reconstructed plane (whose sample at (0,0) it
writes) and a one-block coefficient archive. -/
theorem C2_level_outside_range_still_processes :
    ¬ (0 < (2 : ℚ) ∧ (2 : ℚ) ≤ 1) ∧
    process_channel_dct_checked extTrivial eightPlane 8 2 .uniform
      = some (process_channel_dct extTrivial eightPlane 8 2 .uniform) ∧
    (process_channel_dct extTrivial eightPlane 8 2 .uniform).2.length = 1 ∧
    (process_channel_dct extTrivial eightPlane 8 2 .uniform).1.data 0 0 = 128 := by
  refine ⟨by norm_num, ?_, rfl, ?_⟩
  · rw [process_channel_dct_checked, if_pos (by decide)]
  · have horig : origins 8 8 = [0] := rfl
    show (⌊processPass extTrivial (scaledQuantMatrix extTrivial .uniform 8 2)
        eightPlane 8 0 0⌋).toNat = 128
    have hval : processPass extTrivial (scaledQuantMatrix extTrivial .uniform 8 2)
        eightPlane 8 0 0 = 128 := by
      simp only [processPass, eightPlane, horig, List.foldl_cons, List.foldl_nil]
      simp only [writeBlock, blockH, blockW, reconBlock, dequantBlock, quantBlock,
        dctBlock, shiftedBlock, extTrivial, scaledQuantMatrix, baseQuantMatrix,
        npRound, eightPlane]
      norm_num
    rw [hval]
    simp

/-- C2 amended: the code never validates the compression level, so whether
a run completes is independent of the level value: the checked codec
succeeds exactly when every clipped block has a size `cv2.dct` accepts — a
condition that does not mention the level — and on success it returns, for
every level value including those outside (0,1], a reconstructed plane of
the input's dimensions together with ceil(h/bs)·ceil(w/bs) archived
coefficient blocks. -/
theorem C2_processing_never_rejected (ext : Ext) (ch : Plane) (bs : ℕ)
    (level : ℚ) (q : Quantization) (_hbs : 0 < bs) :
    ((∃ res, process_channel_dct_checked ext ch bs level q = some res)
      ↔ allBlocksOk ch bs) ∧
    (allBlocksOk ch bs →
      process_channel_dct_checked ext ch bs level q
        = some (process_channel_dct ext ch bs level q)) ∧
    (process_channel_dct ext ch bs level q).1.h = ch.h ∧
    (process_channel_dct ext ch bs level q).1.w = ch.w ∧
    (process_channel_dct ext ch bs level q).2.length =
      ((ch.h + bs - 1) / bs) * ((ch.w + bs - 1) / bs) := by
  refine ⟨?_, ?_, rfl, rfl, ?_⟩
  · rw [process_channel_dct_checked]
    by_cases hok : allBlocksOk ch bs
    · simp [hok]
    · simp [hok]
  · intro hok
    rw [process_channel_dct_checked, if_pos hok]
  · show (coeffList ext (scaledQuantMatrix ext q bs level) ch bs).length = _
    have hlen : ∀ (l : List ℕ) (g : ℕ → List QBlock) (n : ℕ),
        (∀ a ∈ l, (g a).length = n) → (l.flatMap g).length = l.length * n := by
      intro l g n
      induction l with
      | nil => intro _; simp
      | cons a t ih =>
          intro hg
          rw [List.flatMap_cons, List.length_append, hg a (by simp),
            ih (fun b hb => hg b (by simp [hb])), List.length_cons]
          ring
    rw [coeffList, hlen _ _ ((origins ch.w bs).length) (fun a _ => by simp)]
    simp [origins]

theorem C2_processing_never_rejected_witness :
    0 < 8 ∧
    (((∃ res, process_channel_dct_checked extTrivial eightPlane 8 2 .uniform = some res)
        ↔ allBlocksOk eightPlane 8) ∧
      (allBlocksOk eightPlane 8 →
        process_channel_dct_checked extTrivial eightPlane 8 2 .uniform
          = some (process_channel_dct extTrivial eightPlane 8 2 .uniform)) ∧
      (process_channel_dct extTrivial eightPlane 8 2 .uniform).1.h = eightPlane.h ∧
      (process_channel_dct extTrivial eightPlane 8 2 .uniform).1.w = eightPlane.w ∧
      (process_channel_dct extTrivial eightPlane 8 2 .uniform).2.length =
        ((eightPlane.h + 8 - 1) / 8) * ((eightPlane.w + 8 - 1) / 8)) :=
  ⟨by norm_num, C2_processing_never_rejected extTrivial eightPlane 8 2 .uniform (by norm_num)⟩

theorem C9_progress_monotone_final_eighty_witness :
    0 < 1 ∧ (List.Pairwise (· ≤ ·) (progressSeq 1) ∧
      (∀ v ∈ progressSeq 1, 0 ≤ v / 100 ∧ v / 100 ≤ 1) ∧
      (progressSeq 1).getLast? = some 80) :=
  ⟨Nat.one_pos, C9_progress_monotone_final_eighty 1 Nat.one_pos⟩

theorem reconBlock_nonneg_le (ext : Ext) (qm : Mat) (ch : Plane) (bs y x i j : ℕ) :
    0 ≤ reconBlock ext qm ch bs y x i j ∧ reconBlock ext qm ch bs y x i j ≤ 255 :=
  ⟨le_min (by norm_num) (le_max_left _ _), min_le_left _ _⟩

theorem innerFold_bounds (ext : Ext) (qm : Mat) (ch : Plane) (bs y : ℕ)
    (xs : List ℕ) (acc : Mat)
    (hacc : ∀ r c, 0 ≤ acc r c ∧ acc r c ≤ 255) (r c : ℕ) :
    0 ≤ (xs.foldl (fun acc2 x =>
        writeBlock acc2 y x (blockH ch bs y) (blockW ch bs x)
          (reconBlock ext qm ch bs y x)) acc) r c ∧
    (xs.foldl (fun acc2 x =>
        writeBlock acc2 y x (blockH ch bs y) (blockW ch bs x)
          (reconBlock ext qm ch bs y x)) acc) r c ≤ 255 := by
  induction xs generalizing acc with
  | nil => exact hacc r c
  | cons x xs ih =>
      rw [List.foldl_cons]
      apply ih
      intro r' c'
      by_cases hcond : y ≤ r' ∧ r' < y + blockH ch bs y ∧ x ≤ c' ∧ c' < x + blockW ch bs x
      · simp only [writeBlock, if_pos hcond]
        exact reconBlock_nonneg_le ext qm ch bs y x _ _
      · simp only [writeBlock, if_neg hcond]
        exact hacc r' c'

theorem processPass_bounds (ext : Ext) (qm : Mat) (ch : Plane) (bs r c : ℕ) :
    0 ≤ processPass ext qm ch bs r c ∧ processPass ext qm ch bs r c ≤ 255 := by
  have houter : ∀ (ys : List ℕ) (acc : Mat),
      (∀ r' c', 0 ≤ acc r' c' ∧ acc r' c' ≤ 255) →
      ∀ r' c',
        0 ≤ (ys.foldl (fun acc y => (origins ch.w bs).foldl
            (fun acc2 x => writeBlock acc2 y x (blockH ch bs y) (blockW ch bs x)
              (reconBlock ext qm ch bs y x)) acc) acc) r' c' ∧
        (ys.foldl (fun acc y => (origins ch.w bs).foldl
            (fun acc2 x => writeBlock acc2 y x (blockH ch bs y) (blockW ch bs x)
              (reconBlock ext qm ch bs y x)) acc) acc) r' c' ≤ 255 := by
    intro ys
    induction ys with
    | nil => intro acc hacc; exact hacc
    | cons y ys ih =>
        intro acc hacc
        rw [List.foldl_cons]
        exact ih _ (fun r' c' => innerFold_bounds ext qm ch bs y (origins ch.w bs) acc hacc r' c')
  exact houter (origins ch.h bs) _ (fun _ _ => ⟨le_refl 0, by norm_num⟩) r c

/-- C7: every reconstructed sample is clamped to [0,255] before being
written (the written block values are `min 255 (max 0 ·)` of the
inverse-transformed, 128-shifted values), and consequently no sample of the
reconstructed plane lies outside [0,255] (samples are naturals, hence also
≥ 0). -/
theorem C7_samples_clamped (ext : Ext) (ch : Plane) (bs : ℕ) (level : ℚ)
    (q : Quantization) (y x i j r c : ℕ) :
    (0 ≤ reconBlock ext (scaledQuantMatrix ext q bs level) ch bs y x i j ∧
      reconBlock ext (scaledQuantMatrix ext q bs level) ch bs y x i j ≤ 255) ∧
    (process_channel_dct ext ch bs level q).1.data r c ≤ 255 := by
  refine ⟨reconBlock_nonneg_le _ _ _ _ _ _ _ _, ?_⟩
  show (⌊processPass ext (scaledQuantMatrix ext q bs level) ch bs r c⌋).toNat ≤ 255
  have h := (processPass_bounds ext (scaledQuantMatrix ext q bs level) ch bs r c).2
  have h2 : ⌊processPass ext (scaledQuantMatrix ext q bs level) ch bs r c⌋ ≤ (255 : ℤ) := by
    have := Int.floor_le_floor h
    simpa using this
  exact Int.toNat_le.2 h2

/-- C10: for every color model the pipeline's output image has exactly
three channels, and under the Grayscale model the output is the processed
gray plane replicated into all three channels (assuming a 3-channel input
image and that the external YCrCb→BGR conversion yields 3 channels, as
documented for `cv2.cvtColor`). -/
theorem C10_output_always_three_channels (ext : Ext) (ec : ExtColor)
    (cs : ColorSpace) (img : List Plane) (bs : ℕ) (level : ℚ) (q : Quantization)
    (himg : img.length = 3)
    (hcb : ∀ im : List Plane, (ec.ycrcb2bgr im).length = 3) :
    (applyDctThread ext ec cs img bs level q).length = 3 ∧
    (cs = .grayscale →
      applyDctThread ext ec cs img bs level q =
        gray2bgr (process_channel_dct ext (ec.bgr2gray img) bs level q).1) := by
  cases cs with
  | rgb =>
      refine ⟨?_, fun h => ColorSpace.noConfusion h⟩
      simp [applyDctThread, himg]
  | ycbcr =>
      refine ⟨?_, fun h => ColorSpace.noConfusion h⟩
      simp [applyDctThread, hcb]
  | grayscale =>
      refine ⟨?_, fun _ => ?_⟩ <;> simp [applyDctThread, gray2bgr]

theorem npRound_half_even (z : ℚ) :
    |(npRound z : ℚ) - z| ≤ 1/2 ∧ ∀ t : ℤ, z = t + 1/2 → npRound z % 2 = 0 := by
  have hfl : (⌊z⌋ : ℚ) ≤ z := Int.floor_le z
  have hfu : z < ⌊z⌋ + 1 := Int.lt_floor_add_one z
  unfold npRound
  by_cases h1 : z - ⌊z⌋ < 1/2
  · rw [if_pos h1]
    refine ⟨by rw [abs_le]; constructor <;> linarith, ?_⟩
    intro t ht
    exfalso
    have hf : ⌊z⌋ = t := by rw [ht]; norm_num
    rw [hf, ht] at h1
    linarith
  · rw [if_neg h1]
    by_cases h2 : 1/2 < z - ⌊z⌋
    · rw [if_pos h2]
      refine ⟨by rw [abs_le]; push_cast; constructor <;> linarith, ?_⟩
      intro t ht
      exfalso
      have hf : ⌊z⌋ = t := by rw [ht]; norm_num
      rw [hf, ht] at h2
      linarith
    · have heq : z - ⌊z⌋ = 1/2 := le_antisymm (not_lt.1 h2) (not_lt.1 h1)
      rw [if_neg h2]
      by_cases hev : ⌊z⌋ % 2 = 0
      · rw [if_pos hev]
        exact ⟨by rw [abs_le]; constructor <;> linarith, fun t _ => hev⟩
      · rw [if_neg hev]
        refine ⟨by rw [abs_le]; push_cast; constructor <;> linarith, fun t _ => ?_⟩
        omega

/-- C5: for every block origin of the loop grid, the archived block is
entry-for-entry the spec's quantization `round(coef[i,j]/matrix[i,j])` of
the block's DCT coefficients — a copy made before dequantization and
independent of it — the dequantized block is entry-for-entry the spec's
`q[i,j]·matrix[i,j]`, and the rounding rule is consistent: numpy's
round-half-to-even, which always picks a nearest integer and an even one at
exact halves. -/
theorem C5_quantize_dequantize_archive (ext : Ext) (ch : Plane) (bs : ℕ)
    (level : ℚ) (q : Quantization) (y x : ℕ)
    (hy : y ∈ origins ch.h bs) (hx : x ∈ origins ch.w bs) :
    quantBlock ext (scaledQuantMatrix ext q bs level) ch bs y x =
      quantizeSpec (dctBlock ext ch bs y x) (scaledQuantMatrix ext q bs level) ∧
    dequantBlock ext (scaledQuantMatrix ext q bs level) ch bs y x =
      dequantizeSpec (quantBlock ext (scaledQuantMatrix ext q bs level) ch bs y x)
        (scaledQuantMatrix ext q bs level) ∧
    (⟨blockH ch bs y, blockW ch bs x,
        quantizeSpec (dctBlock ext ch bs y x) (scaledQuantMatrix ext q bs level)⟩ : QBlock)
      ∈ (process_channel_dct ext ch bs level q).2 ∧
    (∀ z : ℚ, |(npRound z : ℚ) - z| ≤ 1/2 ∧ ∀ t : ℤ, z = t + 1/2 → npRound z % 2 = 0) := by
  refine ⟨rfl, rfl, ?_, fun z => npRound_half_even z⟩
  show _ ∈ coeffList ext (scaledQuantMatrix ext q bs level) ch bs
  rw [coeffList]
  exact List.mem_flatMap.2 ⟨y, hy, List.mem_map.2 ⟨x, hx, rfl⟩⟩

theorem C5_quantize_dequantize_archive_witness :
    (0 ∈ origins onePixelPlane.h 8) ∧ (0 ∈ origins onePixelPlane.w 8) ∧
    (quantBlock extTrivial (scaledQuantMatrix extTrivial .uniform 8 1) onePixelPlane 8 0 0 =
        quantizeSpec (dctBlock extTrivial onePixelPlane 8 0 0)
          (scaledQuantMatrix extTrivial .uniform 8 1) ∧
      dequantBlock extTrivial (scaledQuantMatrix extTrivial .uniform 8 1) onePixelPlane 8 0 0 =
        dequantizeSpec
          (quantBlock extTrivial (scaledQuantMatrix extTrivial .uniform 8 1) onePixelPlane 8 0 0)
          (scaledQuantMatrix extTrivial .uniform 8 1) ∧
      (⟨blockH onePixelPlane 8 0, blockW onePixelPlane 8 0,
          quantizeSpec (dctBlock extTrivial onePixelPlane 8 0 0)
            (scaledQuantMatrix extTrivial .uniform 8 1)⟩ : QBlock)
        ∈ (process_channel_dct extTrivial onePixelPlane 8 1 .uniform).2 ∧
      (∀ z : ℚ, |(npRound z : ℚ) - z| ≤ 1/2 ∧ ∀ t : ℤ, z = t + 1/2 → npRound z % 2 = 0)) :=
  ⟨by decide, by decide,
    C5_quantize_dequantize_archive extTrivial onePixelPlane 8 1 .uniform 0 0
      (by decide) (by decide)⟩

theorem C10_output_always_three_channels_witness :
    (gray2bgr default).length = 3 ∧
    (∀ im : List Plane, (ecTrivial.ycrcb2bgr im).length = 3) ∧
    ((applyDctThread extTrivial ecTrivial .grayscale (gray2bgr default) 8 1 .uniform).length = 3 ∧
      (ColorSpace.grayscale = .grayscale →
        applyDctThread extTrivial ecTrivial .grayscale (gray2bgr default) 8 1 .uniform =
          gray2bgr (process_channel_dct extTrivial
            (ecTrivial.bgr2gray (gray2bgr default)) 8 1 .uniform).1)) :=
  ⟨rfl, fun _ => rfl,
    C10_output_always_three_channels extTrivial ecTrivial .grayscale (gray2bgr default)
      8 1 .uniform rfl (fun _ => rfl)⟩

theorem div_lt_ceilDiv (bs r n : ℕ) (hbs : 0 < bs) (h : r < n) :
    r / bs < (n + bs - 1) / bs := by
  have h1 : r / bs ≤ (n - 1) / bs := Nat.div_le_div_right (by omega)
  have h2 : n + bs - 1 = (n - 1) + bs := by omega
  rw [h2, Nat.add_div_right _ hbs]
  exact Nat.lt_succ_of_le h1

theorem covers_origin_iff (extent bs : ℕ) (hbs : 0 < bs) (r : ℕ) (hr : r < extent) (k : ℕ) :
    (bs * k ≤ r ∧ r < bs * k + min bs (extent - bs * k)) ↔ k = r / bs := by
  have hdm : bs * (r / bs) + r % bs = r := Nat.div_add_mod r bs
  have hmod : r % bs < bs := Nat.mod_lt r hbs
  constructor
  · rintro ⟨h1, h2⟩
    have hmin : min bs (extent - bs * k) ≤ bs := min_le_left _ _
    have h2' : r < bs * k + bs := by linarith
    have hk1 : k ≤ r / bs := (Nat.le_div_iff_mul_le hbs).2 (by linarith [Nat.mul_comm bs k])
    have hexp : (k + 1) * bs = bs * k + bs := by ring
    have hk2 : r / bs < k + 1 := (Nat.div_lt_iff_lt_mul hbs).2 (by linarith)
    exact le_antisymm hk1 (Nat.lt_succ_iff.1 hk2)
  · rintro rfl
    have hA : bs * (r / bs) ≤ r := Nat.le.intro hdm
    refine ⟨hA, ?_⟩
    rcases le_total bs (extent - bs * (r / bs)) with hm | hm
    · rw [min_eq_left hm]
      linarith
    · rw [min_eq_right hm, Nat.add_sub_cancel' (le_trans hA (le_of_lt hr))]
      exact hr

theorem coversRow_origin_iff (ch : Plane) (bs : ℕ) (hbs : 0 < bs) (r : ℕ)
    (hr : r < ch.h) (k : ℕ) :
    coversRow ch bs (bs * k) r ↔ k = r / bs :=
  covers_origin_iff ch.h bs hbs r hr k

theorem coversCol_origin_iff (ch : Plane) (bs : ℕ) (hbs : 0 < bs) (c : ℕ)
    (hc : c < ch.w) (k : ℕ) :
    coversCol ch bs (bs * k) c ↔ k = c / bs :=
  covers_origin_iff ch.w bs hbs c hc k

theorem range_filter_eq_single (p : ℕ → Bool) (K m : ℕ) (hK : K < m)
    (hp : ∀ k, p k = true ↔ k = K) :
    (List.range m).filter p = [K] := by
  induction m with
  | zero => omega
  | succ m ih =>
      rw [List.range_succ, List.filter_append]
      by_cases hKm : K = m
      · subst hKm
        have hnil : (List.range K).filter p = [] := by
          rw [List.filter_eq_nil_iff]
          intro k hk
          have hkK : k < K := List.mem_range.1 hk
          simp [hp k]
          omega
        rw [hnil, List.nil_append]
        have hpK : p K = true := (hp K).2 rfl
        simp [List.filter, hpK]
      · have hKm' : K < m := by omega
        rw [ih hKm']
        have hpm : p m = false := by
          rcases Bool.eq_false_or_eq_true (p m) with h | h
          · exact absurd ((hp m).1 h) (by omega)
          · exact h
        simp [List.filter, hpm]

theorem origins_filter_row (ch : Plane) (bs : ℕ) (hbs : 0 < bs) (r : ℕ) (hr : r < ch.h) :
    (origins ch.h bs).filter (fun y => decide (coversRow ch bs y r)) = [bs * (r / bs)] := by
  have hK := div_lt_ceilDiv bs r ch.h hbs hr
  have hp : ∀ k, ((fun y => decide (coversRow ch bs y r)) ∘ (fun k => bs * k)) k = true
      ↔ k = r / bs := by
    intro k
    simp only [Function.comp_apply, decide_eq_true_eq]
    exact coversRow_origin_iff ch bs hbs r hr k
  rw [origins, List.filter_map, range_filter_eq_single _ _ _ hK hp]
  rfl

theorem origins_filter_col (ch : Plane) (bs : ℕ) (hbs : 0 < bs) (c : ℕ) (hc : c < ch.w) :
    (origins ch.w bs).filter (fun x => decide (coversCol ch bs x c)) = [bs * (c / bs)] := by
  have hK := div_lt_ceilDiv bs c ch.w hbs hc
  have hp : ∀ k, ((fun x => decide (coversCol ch bs x c)) ∘ (fun k => bs * k)) k = true
      ↔ k = c / bs := by
    intro k
    simp only [Function.comp_apply, decide_eq_true_eq]
    exact coversCol_origin_iff ch bs hbs c hc k
  rw [origins, List.filter_map, range_filter_eq_single _ _ _ hK hp]
  rfl

theorem filter_flatMap_eq {α β : Type} (l : List α) (g : α → List β) (p : β → Bool) :
    (l.flatMap g).filter p = l.flatMap (fun a => (g a).filter p) := by
  induction l with
  | nil => rfl
  | cons a t ih => simp only [List.flatMap_cons, List.filter_append, ih]

theorem filter_map_prodMk (y : ℕ) (xs : List ℕ) (p : ℕ × ℕ → Bool) :
    (xs.map (Prod.mk y)).filter p = (xs.filter (fun x => p (y, x))).map (Prod.mk y) := by
  rw [List.filter_map]
  rfl

theorem flatMap_eq_nil_of_forall {β : Type} (l : List ℕ) (g : ℕ → List β)
    (h : ∀ a ∈ l, g a = []) : l.flatMap g = [] := by
  induction l with
  | nil => rfl
  | cons a t ih =>
      rw [List.flatMap_cons, h a (by simp), List.nil_append]
      exact ih (fun b hb => h b (by simp [hb]))

theorem flatMap_eq_of_filter_single {β : Type} (l : List ℕ) (p : ℕ → Bool)
    (g : ℕ → List β) (Y : ℕ)
    (hfil : l.filter p = [Y]) (hoff : ∀ y, p y = false → g y = []) :
    l.flatMap g = g Y := by
  induction l with
  | nil => simp at hfil
  | cons a t ih =>
      rw [List.flatMap_cons]
      cases hpa : p a with
      | false =>
          rw [hoff a hpa, List.nil_append]
          apply ih
          rwa [List.filter_cons_of_neg (by simp [hpa])] at hfil
      | true =>
          rw [List.filter_cons_of_pos (by simp [hpa])] at hfil
          injection hfil with h1 h2
          subst h1
          have hrest : t.flatMap g = [] := by
            apply flatMap_eq_nil_of_forall
            intro b hb
            cases hpb : p b with
            | false => exact hoff b hpb
            | true =>
                exfalso
                have hmem : b ∈ t.filter p := List.mem_filter.2 ⟨hb, hpb⟩
                rw [h2] at hmem
                exact absurd hmem (List.not_mem_nil b)
          rw [hrest, List.append_nil]

theorem coveringPairs_eq (ch : Plane) (bs : ℕ) (hbs : 0 < bs) (r c : ℕ)
    (hr : r < ch.h) (hc : c < ch.w) :
    ((origins ch.h bs).flatMap (fun y => (origins ch.w bs).map (Prod.mk y))).filter
        (fun pr => decide (coversRow ch bs pr.1 r ∧ coversCol ch bs pr.2 c))
      = [(bs * (r / bs), bs * (c / bs))] := by
  rw [filter_flatMap_eq]
  rw [flatMap_eq_of_filter_single _ (fun y => decide (coversRow ch bs y r)) _
    (bs * (r / bs)) (origins_filter_row ch bs hbs r hr) ?hoff]
  case hoff =>
    intro y hy
    rw [List.filter_eq_nil_iff]
    intro pr hpr
    obtain ⟨x, _, rfl⟩ := List.mem_map.1 hpr
    simp only [decide_eq_true_eq]
    rintro ⟨hrow, _⟩
    rw [decide_eq_false_iff_not] at hy
    exact hy hrow
  have hrowY : coversRow ch bs (bs * (r / bs)) r :=
    (coversRow_origin_iff ch bs hbs r hr (r / bs)).2 rfl
  rw [filter_map_prodMk]
  have hcongr : (origins ch.w bs).filter
      (fun x => decide (coversRow ch bs (bs * (r / bs)) r ∧ coversCol ch bs x c))
      = (origins ch.w bs).filter (fun x => decide (coversCol ch bs x c)) := by
    apply List.filter_congr
    intro x _
    simp [hrowY]
  rw [hcongr, origins_filter_col ch bs hbs c hc]
  rfl

theorem innerFold_nocover_row (ext : Ext) (qm : Mat) (ch : Plane) (bs y : ℕ)
    (xs : List ℕ) (acc : Mat) (r c : ℕ) (hrow : ¬ coversRow ch bs y r) :
    (xs.foldl (innerStep ext qm ch bs y) acc) r c = acc r c := by
  induction xs generalizing acc with
  | nil => rfl
  | cons x t ih =>
      rw [List.foldl_cons, ih]
      simp only [innerStep, writeBlock]
      rw [if_neg]
      exact fun hcond => hrow ⟨hcond.1, hcond.2.1⟩

theorem innerFold_nocover_cols (ext : Ext) (qm : Mat) (ch : Plane) (bs y : ℕ)
    (xs : List ℕ) (acc : Mat) (r c : ℕ)
    (hcols : ∀ x ∈ xs, ¬ coversCol ch bs x c) :
    (xs.foldl (innerStep ext qm ch bs y) acc) r c = acc r c := by
  induction xs generalizing acc with
  | nil => rfl
  | cons x t ih =>
      rw [List.foldl_cons, ih _ (fun x' hx' => hcols x' (by simp [hx']))]
      simp only [innerStep, writeBlock]
      rw [if_neg]
      exact fun hcond => hcols x (by simp) ⟨hcond.2.2.1, hcond.2.2.2⟩

theorem innerFold_cover (ext : Ext) (qm : Mat) (ch : Plane) (bs y : ℕ)
    (xs : List ℕ) (acc : Mat) (r c X : ℕ)
    (hrow : coversRow ch bs y r)
    (hfil : xs.filter (fun x => decide (coversCol ch bs x c)) = [X]) :
    (xs.foldl (innerStep ext qm ch bs y) acc) r c
      = reconBlock ext qm ch bs y X (r - y) (c - X) := by
  induction xs generalizing acc with
  | nil => simp at hfil
  | cons x t ih =>
      rw [List.foldl_cons]
      by_cases hx : coversCol ch bs x c
      · rw [List.filter_cons_of_pos (by simp [hx])] at hfil
        injection hfil with h1 h2
        subst h1
        have hnone : ∀ x' ∈ t, ¬ coversCol ch bs x' c := by
          intro x' hx' hcov
          have hmem : x' ∈ t.filter (fun x => decide (coversCol ch bs x c)) :=
            List.mem_filter.2 ⟨hx', by simp [hcov]⟩
          rw [h2] at hmem
          exact absurd hmem (List.not_mem_nil x')
        rw [innerFold_nocover_cols ext qm ch bs y t _ r c hnone]
        simp only [innerStep, writeBlock]
        rw [if_pos ⟨hrow.1, hrow.2, hx.1, hx.2⟩]
      · rw [List.filter_cons_of_neg (by simp [hx])] at hfil
        exact ih _ hfil

theorem outerFold_nocover (ext : Ext) (qm : Mat) (ch : Plane) (bs : ℕ)
    (ys : List ℕ) (acc : Mat) (r c : ℕ)
    (hrows : ∀ y ∈ ys, ¬ coversRow ch bs y r) :
    (ys.foldl (outerStep ext qm ch bs) acc) r c = acc r c := by
  induction ys generalizing acc with
  | nil => rfl
  | cons y t ih =>
      rw [List.foldl_cons, ih _ (fun y' h => hrows y' (by simp [h]))]
      exact innerFold_nocover_row ext qm ch bs y _ acc r c (hrows y (by simp))

theorem outerFold_cover (ext : Ext) (qm : Mat) (ch : Plane) (bs : ℕ)
    (ys : List ℕ) (acc : Mat) (r c Y X : ℕ)
    (hfily : ys.filter (fun y => decide (coversRow ch bs y r)) = [Y])
    (hfilx : (origins ch.w bs).filter (fun x => decide (coversCol ch bs x c)) = [X])
    (hrowY : coversRow ch bs Y r) :
    (ys.foldl (outerStep ext qm ch bs) acc) r c
      = reconBlock ext qm ch bs Y X (r - Y) (c - X) := by
  induction ys generalizing acc with
  | nil => simp at hfily
  | cons y t ih =>
      rw [List.foldl_cons]
      by_cases hy : coversRow ch bs y r
      · rw [List.filter_cons_of_pos (by simp [hy])] at hfily
        injection hfily with h1 h2
        subst h1
        have hnone : ∀ y' ∈ t, ¬ coversRow ch bs y' r := by
          intro y' hy' hcov
          have hmem : y' ∈ t.filter (fun y => decide (coversRow ch bs y r)) :=
            List.mem_filter.2 ⟨hy', by simp [hcov]⟩
          rw [h2] at hmem
          exact absurd hmem (List.not_mem_nil y')
        rw [outerFold_nocover ext qm ch bs t _ r c hnone]
        exact innerFold_cover ext qm ch bs y _ acc r c X hy hfilx
      · rw [List.filter_cons_of_neg (by simp [hy])] at hfily
        exact ih _ hfily

theorem processPass_eq_reconBlock (ext : Ext) (qm : Mat) (ch : Plane) (bs : ℕ)
    (hbs : 0 < bs) (r c : ℕ) (hr : r < ch.h) (hc : c < ch.w) :
    processPass ext qm ch bs r c
      = reconBlock ext qm ch bs (bs * (r / bs)) (bs * (c / bs))
          (r - bs * (r / bs)) (c - bs * (c / bs)) := by
  have hrowY : coversRow ch bs (bs * (r / bs)) r :=
    (coversRow_origin_iff ch bs hbs r hr (r / bs)).2 rfl
  show ((origins ch.h bs).foldl (outerStep ext qm ch bs) (fun _ _ => 0)) r c = _
  exact outerFold_cover ext qm ch bs (origins ch.h bs) _ r c _ _
    (origins_filter_row ch bs hbs r hr) (origins_filter_col ch bs hbs c hc) hrowY

/-- C6 counterexample: the 11×16 plane at block size 8 has the loop origin
`y = 8` whose clipped block is 3×8 — an odd height `cv2.dct` rejects — so
the codec raises and produces no reconstructed plane at all: no pixel is
written, refuting coverage for arbitrary dimensions. -/
theorem C6_odd_edge_block_aborts :
    (8 : ℕ) ∈ origins oddEdgePlane.h 8 ∧
    ¬ dctSizeOk (blockH oddEdgePlane 8 8) (blockW oddEdgePlane 8 0) ∧
    process_channel_dct_checked extTrivial oddEdgePlane 8 1 .uniform = none := by
  refine ⟨by decide, by decide, ?_⟩
  rw [process_channel_dct_checked, if_neg (by decide)]

/-- C6 amended: whenever every clipped block of the loop grid has a size
`cv2.dct` accepts (even dimensions; otherwise the library raises and no
plane is produced, see the counterexample), each pixel of the
reconstructed plane lies in the write region of exactly one block — the
block at origin `(bs·(r/bs), bs·(c/bs))` — and the produced plane's value
there is that block's reconstructed sample: the clipped block processed
with the quantization matrix entries inside the clipped extent (the
top-left submatrix). -/
theorem C6_every_pixel_written_once (ext : Ext) (ch : Plane) (bs : ℕ)
    (level : ℚ) (q : Quantization) (hbs : 0 < bs) (hok : allBlocksOk ch bs)
    (r c : ℕ) (hr : r < ch.h) (hc : c < ch.w) :
    ((origins ch.h bs).flatMap (fun y => (origins ch.w bs).map (Prod.mk y))).filter
        (fun pr => decide (coversRow ch bs pr.1 r ∧ coversCol ch bs pr.2 c))
      = [(bs * (r / bs), bs * (c / bs))] ∧
    ∃ res, process_channel_dct_checked ext ch bs level q = some res ∧
      res.1.data r c
        = (⌊reconBlock ext (scaledQuantMatrix ext q bs level) ch bs
              (bs * (r / bs)) (bs * (c / bs))
              (r - bs * (r / bs)) (c - bs * (c / bs))⌋).toNat := by
  refine ⟨coveringPairs_eq ch bs hbs r c hr hc,
    ⟨process_channel_dct ext ch bs level q, ?_, ?_⟩⟩
  · rw [process_channel_dct_checked, if_pos hok]
  · show (⌊processPass ext (scaledQuantMatrix ext q bs level) ch bs r c⌋).toNat = _
    rw [processPass_eq_reconBlock ext (scaledQuantMatrix ext q bs level) ch bs hbs r c hr hc]

theorem C6_every_pixel_written_once_witness :
    0 < 8 ∧ allBlocksOk eightPlane 8 ∧
    (0 : ℕ) < eightPlane.h ∧ (0 : ℕ) < eightPlane.w ∧
    (((origins eightPlane.h 8).flatMap
        (fun y => (origins eightPlane.w 8).map (Prod.mk y))).filter
        (fun pr => decide (coversRow eightPlane 8 pr.1 0 ∧ coversCol eightPlane 8 pr.2 0))
      = [(8 * (0 / 8), 8 * (0 / 8))] ∧
    ∃ res, process_channel_dct_checked extTrivial eightPlane 8 1 .uniform = some res ∧
      res.1.data 0 0
        = (⌊reconBlock extTrivial (scaledQuantMatrix extTrivial .uniform 8 1) eightPlane 8
              (8 * (0 / 8)) (8 * (0 / 8)) (0 - 8 * (0 / 8)) (0 - 8 * (0 / 8))⌋).toNat) :=
  ⟨by norm_num, by decide, by decide, by decide,
    C6_every_pixel_written_once extTrivial eightPlane 8 1 .uniform (by norm_num) (by decide)
      0 0 (by decide) (by decide)⟩

end KompresiRle
